import Mathlib

/-!
Verification of the mailbox synchronization and message-content resolution
engine of a terminal mail reader (`src/imap/client.rs`, `src/imap/parser.rs`,
`src/imap/models.rs`).

Strings from the Rust source are modelled as `List Char`.  Rust byte-index
slicing appears only at positions that are provably character boundaries
(after an ASCII prefix match, or after a one-byte character such as `<`),
so the character-level model is faithful.  Raw message bytes are modelled
as `List Nat`.  External library routines (the `mailparse` MIME parser,
the `html2text` 80-column renderer, UTF-8 lossy decoding) are abstracted
as function parameters; everything else is translated from the source.
-/

namespace EmailClient

/-- Unicode whitespace set used by Rust's `str::trim`
(`char::is_whitespace`). -/
def rustIsWhitespace (c : Char) : Bool :=
  (0x09 ≤ c.toNat && c.toNat ≤ 0x0D) || c.toNat == 0x20 || c.toNat == 0x85 ||
  c.toNat == 0xA0 || c.toNat == 0x1680 ||
  (0x2000 ≤ c.toNat && c.toNat ≤ 0x200A) || c.toNat == 0x2028 ||
  c.toNat == 0x2029 || c.toNat == 0x202F || c.toNat == 0x205F ||
  c.toNat == 0x3000

/-- Model of Rust `str::trim`: strip leading and trailing whitespace. -/
def trim (l : List Char) : List Char :=
  ((l.dropWhile rustIsWhitespace).reverse.dropWhile rustIsWhitespace).reverse

/-- Model of Rust `str::split("\r\n")`: split into lines on the exact
two-character CRLF separator. -/
def splitCRLF : List Char → List (List Char)
  | [] => [[]]
  | '\r' :: '\n' :: rest => [] :: splitCRLF rest
  | c :: rest =>
    match splitCRLF rest with
    | [] => [[c]]
    | seg :: segs => (c :: seg) :: segs

/-- Byte index of the first occurrence of character `c`
(Rust `str::find(char)`; every character searched for in the source is
one byte, so character index = byte index). -/
def findChar (c : Char) : List Char → Option Nat
  | [] => none
  | x :: xs => if x == c then some 0 else (findChar c xs).map (· + 1)

/-- From-address extraction applied to the trimmed From value, translated
from `client.rs` lines 72-85: take the text strictly between the first
`<` and the first following `>`; everything after `<` if no `>` follows;
the whole value if there is no `<`. -/
def extractAddr (after : List Char) : List Char :=
  match findChar '<' after with
  | some start =>
    match findChar '>' (after.drop (start + 1)) with
    | some e => (after.drop (start + 1)).take e
    | none => after.drop (start + 1)
  | none => after

/-- Model of Rust `str::eq_ignore_ascii_case` (ASCII-only case folding;
Lean's `Char.toLower` lowers exactly the ASCII uppercase letters). -/
def eqIgnoreAsciiCase (a b : List Char) : Bool :=
  a.map Char.toLower == b.map Char.toLower

/-- MIME part tree as produced by the `mailparse` crate: a content-type
label, the decoded body of the node, and the ordered subparts
(`ParsedMail { ctype.mimetype, get_body(), subparts }`). -/
inductive Mime where
  | part : List Char → List Char → List Mime → Mime

/-- Content-type label of a node. -/
def Mime.mimetype : Mime → List Char
  | .part t _ _ => t

/-- Decoded body content of a node. -/
def Mime.content : Mime → List Char
  | .part _ b _ => b

mutual

/-- Translation of `parser.rs::find_plain`: pre-order search for the first
node whose content-type is `text/plain` (ASCII case-insensitive); the
fallible `get_body` decode of the library is modelled as the node's
stored content. -/
def find_plain : Mime → Option (List Char)
  | .part t b subs =>
    if eqIgnoreAsciiCase t "text/plain".data then some b
    else findPlainList subs

/-- Pre-order search of `find_plain` over a subpart list. -/
def findPlainList : List Mime → Option (List Char)
  | [] => none
  | m :: ms =>
    match find_plain m with
    | some t => some t
    | none => findPlainList ms

end

mutual

/-- Translation of `parser.rs::find_html`: pre-order search for the first
node whose content-type is `text/html` (ASCII case-insensitive). -/
def find_html : Mime → Option (List Char)
  | .part t b subs =>
    if eqIgnoreAsciiCase t "text/html".data then some b
    else findHtmlList subs

/-- Pre-order search of `find_html` over a subpart list. -/
def findHtmlList : List Mime → Option (List Char)
  | [] => none
  | m :: ms =>
    match find_html m with
    | some h => some h
    | none => findHtmlList ms

end

mutual

/-- Does some node of the tree (pre-order) satisfy `p`? -/
def anyNode (p : Mime → Bool) : Mime → Bool
  | .part t b subs => p (.part t b subs) || anyNodeList p subs

/-- Does some node of some tree in the list satisfy `p`? -/
def anyNodeList (p : Mime → Bool) : List Mime → Bool
  | [] => false
  | m :: ms => anyNode p m || anyNodeList p ms

end

/-- The tree has a `text/plain` node. -/
def hasPlain (m : Mime) : Bool :=
  anyNode (fun n => eqIgnoreAsciiCase n.mimetype "text/plain".data) m

/-- The tree has a `text/html` node. -/
def hasHtml (m : Mime) : Bool :=
  anyNode (fun n => eqIgnoreAsciiCase n.mimetype "text/html".data) m

/-- Some `text/plain` node of the tree has content `t`. -/
def plainContent (m : Mime) (t : List Char) : Bool :=
  anyNode (fun n => eqIgnoreAsciiCase n.mimetype "text/plain".data &&
    n.content == t) m

/-- Some `text/html` node of the tree has content `h`. -/
def htmlContent (m : Mime) (h : List Char) : Bool :=
  anyNode (fun n => eqIgnoreAsciiCase n.mimetype "text/html".data &&
    n.content == h) m

/-- Translation of the body-resolution part of `client.rs::fetch_body`
(lines 144-161).  `resp` is the list of FETCH response items, each
carrying an optional raw body (`resp.iter().next().and_then(|f| f.body())`);
`parse` abstracts `mailparse::parse_mail`, `render` abstracts
`html2text::from_read(_, 80)` (the 80-column renderer) and `lossy`
abstracts `String::from_utf8_lossy`.  A parse failure is propagated
through the `?` operator, exactly as in the source. -/
def fetch_body_resolve (lossy : List Nat → List Char)
    (render : List Char → List Char) (parse : List Nat → Except Unit Mime)
    (resp : List (Option (List Nat))) : Except Unit (List Char) :=
  match resp.head?.bind id with
  | none => .ok []
  | some raw =>
    match parse raw with
    | .error e => .error e
    | .ok mail =>
      match find_plain mail with
      | some txt => .ok txt
      | none =>
        match find_html mail with
        | some html => .ok (render html)
        | none => .ok (lossy raw)

/-- Does the lowercased line start with the (lowercase) pattern
`"<name>:"`?  This models `raw_line.to_lowercase().starts_with("<name>:")`
from the source.  Rust's `to_lowercase` is full Unicode, modelled here by
ASCII lowering: the only characters whose Unicode lowercase begins with
one of the ASCII letters appearing in the field names `from`, `subject`,
`date` (or with `:`) are the corresponding ASCII uppercase letters, so
the two agree on every prefix test the source performs. -/
def matchesField (pat : List Char) (line : List Char) : Bool :=
  (line.map Char.toLower).take pat.length == pat

/-- Per-line update for the From field in `fetch_inbox` (lines 66-87):
on a `from:`-prefixed line, drop the 5-byte `From:` prefix, trim, and
apply the angle-bracket address extraction; otherwise keep the
accumulator, so the last matching line wins. -/
def fromLineStep (acc : List Char) (line : List Char) : List Char :=
  if matchesField "from:".data line then extractAddr (trim (line.drop 5))
  else acc

/-- From-address computed by `fetch_inbox` from one raw header block:
scan the CRLF-split lines in order, last `from:` line wins, starting
from the empty string. -/
def fromOfHeader (header : List Char) : List Char :=
  (splitCRLF header).foldl fromLineStep []

/-- Translation of the header-scanning loop of `client.rs::fetch_headers`
(lines 113-133): fold over the CRLF-split lines, with an
if/else-if/else-if chain on the `from:`, `subject:`, `date:` prefixes;
each match overwrites the corresponding accumulator component with the
trimmed remainder of the line after the prefix. -/
def fetchHeadersFields (block : List Char) :
    List Char × List Char × List Char :=
  (splitCRLF block).foldl
    (fun acc line =>
      if matchesField "from:".data line then
        (trim (line.drop 5), acc.2.1, acc.2.2)
      else if matchesField "subject:".data line then
        (acc.1, trim (line.drop 8), acc.2.2)
      else if matchesField "date:".data line then
        (acc.1, acc.2.1, trim (line.drop 5))
      else acc)
    ([], [], [])

/-- Specification-side description of field lookup: the value of field
`pat` is the trimmed remainder of the last line (in document order)
whose lowercased prefix is the pattern, and the empty string when no
line matches. -/
def lastFieldValue (pat : List Char) (block : List Char) : List Char :=
  match ((splitCRLF block).reverse.find? (matchesField pat)) with
  | some line => trim (line.drop pat.length)
  | none => []

/-- A message as stored on the server: stable UID, internal date
(`DateTime<FixedOffset>` modelled as an integer on the total order used
by `cmp`), and the deletion flag. -/
structure Msg where
  uid : Nat
  date : Int
  deleted : Bool

/-- Server-side state of the INBOX folder: the messages in enumeration
(wire) order, plus the server's responses for per-UID fetches —
`headerOf uid` is the raw block answering
`BODY.PEEK[HEADER.FIELDS (FROM DATE)]` (and the FROM SUBJECT DATE
variant), `bodyOf uid` the FETCH items answering an `RFC822` fetch,
each with an optional raw body. -/
structure Mailbox where
  msgs : List Msg
  headerOf : Nat → List Char
  bodyOf : Nat → List (Option (List Nat))

/-- The remote server; the engine only ever addresses the INBOX folder. -/
structure Server where
  inbox : Mailbox

/-- Client-visible session state: which folder is currently selected
(`session.select` mutates it; `None` until a first selection). -/
structure SessionState where
  selectedFolder : Option String

/-- Descending-by-date comparison used by the sort in `fetch_inbox`
(line 44): `b.1.cmp(&a.1)` orders pairs so that larger dates come
first. -/
def dateDesc (a b : Nat × Int) : Prop := b.2 ≤ a.2

instance : DecidableRel dateDesc := fun a b => Int.decLe b.2 a.2

instance : IsTotal (Nat × Int) dateDesc :=
  ⟨fun a b => Int.le_total b.2 a.2⟩

instance : IsTrans (Nat × Int) dateDesc :=
  ⟨fun _ _ _ hab hbc => le_trans hbc hab⟩

/-- Pure core of `client.rs::fetch_inbox` (lines 29-99): collect the
(uid, internal-date) pairs of every message, sort descending by date,
keep the first `count`, and for each retained pair fetch the
FROM/DATE header block and extract the From address.  The sort is
Rust's `sort_unstable_by` with the descending-date comparator,
modelled as a deterministic comparison sort; the server model answers
each per-UID header fetch with exactly one FETCH item carrying the
header block. -/
def fetch_inbox_list (mb : Mailbox) (count : Nat) :
    List (Nat × List Char × Int) :=
  let uid_dates := mb.msgs.map (fun m => (m.uid, m.date))
  let sorted := uid_dates.insertionSort dateDesc
  let newest := sorted.take count
  newest.map (fun p => (p.1, fromOfHeader (mb.headerOf p.1), p.2))

/-- Session-level `fetch_inbox`: selects INBOX first (line 31), then runs
the pure core against the selected folder. -/
def fetch_inbox (srv : Server) (count : Nat) (_s : SessionState) :
    SessionState × List (Nat × List Char × Int) :=
  let s1 : SessionState := ⟨some "INBOX"⟩
  (s1, fetch_inbox_list srv.inbox count)

/-- Session-level `fetch_headers`: selects INBOX first (line 104), then
extracts the From/Subject/Date fields from the header block the server
returns for the UID. -/
def fetch_headers (srv : Server) (uid : Nat) (_s : SessionState) :
    SessionState × (List Char × List Char × List Char) :=
  let s1 : SessionState := ⟨some "INBOX"⟩
  (s1, fetchHeadersFields (srv.inbox.headerOf uid))

/-- Session-level `fetch_body`: issues its UID fetch WITHOUT selecting a
folder first (lines 142-162 contain no `select` call); the fetch is a
protocol error when no folder is selected, and otherwise runs against
the currently selected folder (only INBOX exists in this model). -/
def fetch_body (lossy : List Nat → List Char)
    (render : List Char → List Char) (parse : List Nat → Except Unit Mime)
    (srv : Server) (uid : Nat) (s : SessionState) :
    SessionState × Except Unit (List Char) :=
  (s, if s.selectedFolder.isSome then
        fetch_body_resolve lossy render parse (srv.inbox.bodyOf uid)
      else .error ())

/-- Effect of `uid_store(uid, "+FLAGS (\Deleted)")`: set the deletion
flag on every message with the given UID. -/
def storeDeleted (uid : Nat) (msgs : List Msg) : List Msg :=
  msgs.map (fun m => if m.uid == uid then ⟨m.uid, m.date, true⟩ else m)

/-- Effect of `expunge()`: permanently remove every message currently
flagged deleted from the selected folder. -/
def expunge (msgs : List Msg) : List Msg :=
  msgs.filter (fun m => !m.deleted)

/-- Translation of `client.rs::delete_message` (lines 164-170): select
INBOX, flag the UID deleted, then expunge the folder. -/
def delete_message (srv : Server) (uid : Nat) (_s : SessionState) :
    SessionState × Server :=
  let s1 : SessionState := ⟨some "INBOX"⟩
  (s1, ⟨⟨expunge (storeDeleted uid srv.inbox.msgs),
         srv.inbox.headerOf, srv.inbox.bodyOf⟩⟩)

/-! Helper lemmas about `findChar`. -/

theorem findChar_eq_none {c : Char} {l : List Char} (h : c ∉ l) :
    findChar c l = none := by
  induction l with
  | nil => rfl
  | cons x xs ih =>
    simp only [List.mem_cons, not_or] at h
    have hx : (x == c) = false := beq_eq_false_iff_ne.mpr fun e => h.1 e.symm
    simp [findChar, hx, ih h.2]

theorem findChar_spec {c : Char} {l : List Char} (h : c ∈ l) :
    ∃ k, findChar c l = some k ∧
      l.take k = l.takeWhile (fun x => x != c) ∧
      l.drop (k + 1) = (l.dropWhile (fun x => x != c)).tail := by
  induction l with
  | nil => cases h
  | cons x xs ih =>
    by_cases hx : x = c
    · subst hx
      refine ⟨0, by simp [findChar], by simp [List.takeWhile], ?_⟩
      simp [List.dropWhile]
    · have hb : (x == c) = false := beq_eq_false_iff_ne.mpr hx
      have hb' : (x != c) = true := by simp [bne, hb]
      have hmem : c ∈ xs := by
        rcases List.mem_cons.mp h with h1 | h2
        · exact absurd h1.symm hx
        · exact h2
      obtain ⟨k, hk, ht, hd⟩ := ih hmem
      refine ⟨k + 1, ?_, ?_, ?_⟩
      · simp [findChar, hb, hk]
      · simp [List.takeWhile, hb', ht]
      · simpa [List.dropWhile, hb'] using hd

/-- C5: on every trimmed From value, the extracted sender is the text
strictly between the first `<` and the first `>` after it; everything
after the `<` when no `>` follows; and the whole value when there is no
`<` — together with the three concrete examples from the specification. -/
theorem c5_from_extraction :
    (∀ after : List Char,
      extractAddr after =
        if '<' ∈ after then
          if '>' ∈ (after.dropWhile (fun x => x != '<')).tail then
            ((after.dropWhile (fun x => x != '<')).tail).takeWhile
              (fun x => x != '>')
          else (after.dropWhile (fun x => x != '<')).tail
        else after)
    ∧ extractAddr "Jane Doe <jane@x.com>".data = "jane@x.com".data
    ∧ extractAddr "jane@x.com".data = "jane@x.com".data
    ∧ extractAddr "Jane <jane@x.com".data = "jane@x.com".data := by
  refine ⟨?_, by decide, by decide, by decide⟩
  intro after
  by_cases h : '<' ∈ after
  · obtain ⟨k, hk, _, hd⟩ := findChar_spec h
    rw [if_pos h]
    simp only [extractAddr, hk, hd]
    by_cases h2 : '>' ∈ (after.dropWhile (fun x => x != '<')).tail
    · obtain ⟨e, he, ht2, _⟩ := findChar_spec h2
      simp [he, if_pos h2, ht2]
    · simp [findChar_eq_none h2, if_neg h2]
  · simp [extractAddr, findChar_eq_none h, if_neg h]

/-! Helper lemmas for the header-field fold. -/

/-- Single-field version of the scanning step: on a matching line take
the trimmed remainder after the `n`-byte prefix, otherwise keep the
accumulator. -/
def fieldStep (pat : List Char) (n : Nat) (x line : List Char) : List Char :=
  if matchesField pat line then trim (line.drop n) else x

theorem head?_of_take_eq {α : Type} {l p : List α} {n : Nat}
    (h : l.take n = p) (hp : p ≠ []) : l.head? = p.head? := by
  cases l with
  | nil => simp at h; exact absurd h hp
  | cons x xs =>
    cases n with
    | zero => simp at h; exact absurd h hp
    | succ m => rw [List.take_succ_cons] at h; rw [← h]; rfl

theorem matchesField_disjoint {p q line : List Char}
    (hpq : p.head? ≠ q.head?) (hp : p ≠ []) (hq : q ≠ [])
    (h1 : matchesField p line = true) (h2 : matchesField q line = true) :
    False := by
  have e1 := eq_of_beq h1
  have e2 := eq_of_beq h2
  exact hpq ((head?_of_take_eq e1 hp).symm.trans (head?_of_take_eq e2 hq))

theorem foldl_if_last {α : Type} (p : List Char → Bool) (f : List Char → α)
    (lines : List (List Char)) (a : α) :
    lines.foldl (fun x line => if p line then f line else x) a =
      match lines.reverse.find? p with
      | some l => f l
      | none => a := by
  induction lines generalizing a with
  | nil => rfl
  | cons l ls ih =>
    simp only [List.foldl_cons, List.reverse_cons, List.find?_append]
    rw [ih]
    cases hfind : ls.reverse.find? p with
    | some x => simp
    | none =>
      by_cases hp : p l
      · simp [hp]
      · simp [hp]

theorem foldl_fieldStep_last (pat : List Char) (n : Nat)
    (lines : List (List Char)) (a : List Char) :
    lines.foldl (fieldStep pat n) a =
      match lines.reverse.find? (matchesField pat) with
      | some l => trim (l.drop n)
      | none => a :=
  foldl_if_last (matchesField pat) (fun l => trim (l.drop n)) lines a

theorem fold3_split (lines : List (List Char)) (a b c : List Char) :
    lines.foldl
      (fun acc line =>
        if matchesField "from:".data line then
          (trim (line.drop 5), acc.2.1, acc.2.2)
        else if matchesField "subject:".data line then
          (acc.1, trim (line.drop 8), acc.2.2)
        else if matchesField "date:".data line then
          (acc.1, acc.2.1, trim (line.drop 5))
        else acc)
      (a, b, c) =
      (lines.foldl (fieldStep "from:".data 5) a,
       lines.foldl (fieldStep "subject:".data 8) b,
       lines.foldl (fieldStep "date:".data 5) c) := by
  induction lines generalizing a b c with
  | nil => rfl
  | cons l ls ih =>
    by_cases hf : matchesField "from:".data l = true
    · have hs : matchesField "subject:".data l = false := by
        cases h2 : matchesField "subject:".data l
        · rfl
        · exact (matchesField_disjoint (by decide) (by decide) (by decide)
            hf h2).elim
      have hd : matchesField "date:".data l = false := by
        cases h2 : matchesField "date:".data l
        · rfl
        · exact (matchesField_disjoint (by decide) (by decide) (by decide)
            hf h2).elim
      simp [fieldStep, hf, hs, hd, ih]
    · by_cases hs : matchesField "subject:".data l = true
      · have hd : matchesField "date:".data l = false := by
          cases h2 : matchesField "date:".data l
          · rfl
          · exact (matchesField_disjoint (by decide) (by decide) (by decide)
              hs h2).elim
        simp [fieldStep, hf, hs, hd, ih]
      · by_cases hd : matchesField "date:".data l = true
        · simp [fieldStep, hf, hs, hd, ih]
        · simp [fieldStep, hf, hs, hd, ih]

/-- C6: for every raw header block, the field extractor of
`fetch_headers` returns, for each of the queried field names, the
whitespace-trimmed remainder of the last CRLF-split line (in document
order) whose lowercased prefix is `"<name>:"`, and the empty string
when no line matches; being a total function, it never raises. -/
theorem c6_header_lookup (block : List Char) :
    fetchHeadersFields block =
      (lastFieldValue "from:".data block,
       lastFieldValue "subject:".data block,
       lastFieldValue "date:".data block) := by
  unfold fetchHeadersFields lastFieldValue
  rw [fold3_split, foldl_fieldStep_last, foldl_fieldStep_last,
    foldl_fieldStep_last]
  have l5 : ("from:".data).length = 5 := rfl
  have l8 : ("subject:".data).length = 8 := rfl
  have ld : ("date:".data).length = 5 := rfl
  rw [l5, l8, ld]

/-! Lemmas relating the pre-order searches to node predicates. -/

@[simp] theorem mimetype_part (t b : List Char) (subs : List Mime) :
    (Mime.part t b subs).mimetype = t := rfl

@[simp] theorem content_part (t b : List Char) (subs : List Mime) :
    (Mime.part t b subs).content = b := rfl

mutual

theorem hasPlain_eq : ∀ (m : Mime), hasPlain m = (find_plain m).isSome
  | .part ty b subs => by
    have hl := anyPlainList_eq subs
    by_cases hty : eqIgnoreAsciiCase ty "text/plain".data = true
    · simp [hasPlain, anyNode, find_plain, hty]
    · simp [hasPlain, anyNode, find_plain, hty, hl]

theorem anyPlainList_eq : ∀ (ms : List Mime),
    anyNodeList (fun n => eqIgnoreAsciiCase n.mimetype "text/plain".data) ms
      = (findPlainList ms).isSome
  | [] => by simp [anyNodeList, findPlainList]
  | m :: ms => by
    have h1 := hasPlain_eq m
    simp only [hasPlain] at h1
    have h2 := anyPlainList_eq ms
    cases hm : find_plain m with
    | some t => simp [anyNodeList, findPlainList, h1, hm]
    | none => simp [anyNodeList, findPlainList, h1, h2, hm]

end

mutual

theorem hasHtml_eq : ∀ (m : Mime), hasHtml m = (find_html m).isSome
  | .part ty b subs => by
    have hl := anyHtmlList_eq subs
    by_cases hty : eqIgnoreAsciiCase ty "text/html".data = true
    · simp [hasHtml, anyNode, find_html, hty]
    · simp [hasHtml, anyNode, find_html, hty, hl]

theorem anyHtmlList_eq : ∀ (ms : List Mime),
    anyNodeList (fun n => eqIgnoreAsciiCase n.mimetype "text/html".data) ms
      = (findHtmlList ms).isSome
  | [] => by simp [anyNodeList, findHtmlList]
  | m :: ms => by
    have h1 := hasHtml_eq m
    simp only [hasHtml] at h1
    have h2 := anyHtmlList_eq ms
    cases hm : find_html m with
    | some t => simp [anyNodeList, findHtmlList, h1, hm]
    | none => simp [anyNodeList, findHtmlList, h1, h2, hm]

end

mutual

theorem find_plain_sound : ∀ (m : Mime) (t : List Char),
    find_plain m = some t → plainContent m t = true
  | .part ty b subs, t, h => by
    by_cases hty : eqIgnoreAsciiCase ty "text/plain".data = true
    · rw [find_plain, if_pos hty] at h
      have hb : b = t := Option.some.inj h
      simp [plainContent, anyNode, hty, hb]
    · rw [find_plain, if_neg hty] at h
      have := findPlainList_sound subs t h
      simp [plainContent, anyNode, this]

theorem findPlainList_sound : ∀ (ms : List Mime) (t : List Char),
    findPlainList ms = some t →
      anyNodeList (fun n => eqIgnoreAsciiCase n.mimetype "text/plain".data
        && n.content == t) ms = true
  | [], _, h => by simp [findPlainList] at h
  | m :: ms, t, h => by
    cases hm : find_plain m with
    | some x =>
      simp only [findPlainList, hm, Option.some.injEq] at h
      subst h
      have := find_plain_sound m x hm
      simp only [plainContent] at this
      simp [anyNodeList, this]
    | none =>
      simp only [findPlainList, hm] at h
      have := findPlainList_sound ms t h
      simp [anyNodeList, this]

end

mutual

theorem find_html_sound : ∀ (m : Mime) (t : List Char),
    find_html m = some t → htmlContent m t = true
  | .part ty b subs, t, h => by
    by_cases hty : eqIgnoreAsciiCase ty "text/html".data = true
    · rw [find_html, if_pos hty] at h
      have hb : b = t := Option.some.inj h
      simp [htmlContent, anyNode, hty, hb]
    · rw [find_html, if_neg hty] at h
      have := findHtmlList_sound subs t h
      simp [htmlContent, anyNode, this]

theorem findHtmlList_sound : ∀ (ms : List Mime) (t : List Char),
    findHtmlList ms = some t →
      anyNodeList (fun n => eqIgnoreAsciiCase n.mimetype "text/html".data
        && n.content == t) ms = true
  | [], _, h => by simp [findHtmlList] at h
  | m :: ms, t, h => by
    cases hm : find_html m with
    | some x =>
      simp only [findHtmlList, hm, Option.some.injEq] at h
      subst h
      have := find_html_sound m x hm
      simp only [htmlContent] at this
      simp [anyNodeList, this]
    | none =>
      simp only [findHtmlList, hm] at h
      have := findHtmlList_sound ms t h
      simp [anyNodeList, this]

end

/-- Concrete MIME tree for witnesses: a `text/html` leaf sits earlier and
shallower than the `text/plain` leaf. -/
def sampleMail : Mime :=
  .part "multipart/alternative".data []
    [.part "text/html".data "<p>hi</p>".data [],
     .part "multipart/mixed".data []
       [.part "text/plain".data "hi".data []]]

/-- C2: whenever the FETCH response carries raw bytes that parse to a MIME
tree, body resolution returns the content of some `text/plain` node if one
exists anywhere in the tree (regardless of where any `text/html` node
sits); otherwise the 80-column rendering of a `text/html` node if one
exists; otherwise the raw bytes decoded with lossy UTF-8. -/
theorem c2_content_resolution (lossy : List Nat → List Char)
    (render : List Char → List Char) (parse : List Nat → Except Unit Mime)
    (resp : List (Option (List Nat))) (raw : List Nat) (mail : Mime)
    (hresp : resp.head?.bind id = some raw)
    (hparse : parse raw = Except.ok mail) :
    (hasPlain mail = true →
      ∃ t, plainContent mail t = true ∧
        fetch_body_resolve lossy render parse resp = Except.ok t)
    ∧ (hasPlain mail = false → hasHtml mail = true →
      ∃ h, htmlContent mail h = true ∧
        fetch_body_resolve lossy render parse resp = Except.ok (render h))
    ∧ (hasPlain mail = false → hasHtml mail = false →
      fetch_body_resolve lossy render parse resp = Except.ok (lossy raw)) := by
  have hbody : fetch_body_resolve lossy render parse resp =
      (match find_plain mail with
       | some txt => Except.ok txt
       | none =>
         match find_html mail with
         | some html => Except.ok (render html)
         | none => Except.ok (lossy raw)) := by
    simp only [fetch_body_resolve, hresp, hparse]
  refine ⟨?_, ?_, ?_⟩
  · intro hp
    rw [hasPlain_eq] at hp
    cases hfp : find_plain mail with
    | none => rw [hfp] at hp; simp at hp
    | some t =>
      refine ⟨t, find_plain_sound mail t hfp, ?_⟩
      rw [hbody, hfp]
  · intro hp hh
    rw [hasPlain_eq] at hp
    rw [hasHtml_eq] at hh
    cases hfp : find_plain mail with
    | some t => rw [hfp] at hp; simp at hp
    | none =>
      cases hfh : find_html mail with
      | none => rw [hfh] at hh; simp at hh
      | some h =>
        refine ⟨h, find_html_sound mail h hfh, ?_⟩
        rw [hbody, hfp, hfh]
  · intro hp hh
    rw [hasPlain_eq] at hp
    rw [hasHtml_eq] at hh
    cases hfp : find_plain mail with
    | some t => rw [hfp] at hp; simp at hp
    | none =>
      cases hfh : find_html mail with
      | some h => rw [hfh] at hh; simp at hh
      | none => rw [hbody, hfp, hfh]

/-- Witness for C2 at a concrete tree whose `text/html` leaf precedes and
is shallower than its `text/plain` leaf. -/
theorem c2_content_resolution_witness :
    ∃ t, plainContent sampleMail t = true ∧
      fetch_body_resolve (fun _ => []) (fun l => l)
        (fun _ => Except.ok sampleMail) [some [104, 105]] = Except.ok t :=
  (c2_content_resolution (fun _ => []) (fun l => l)
    (fun _ => Except.ok sampleMail) [some [104, 105]] [104, 105] sampleMail
    rfl rfl).1 (by decide)

/-- Counterexample to C3: when the raw bytes fail to parse, `fetch_body`
propagates the error through `?` instead of recovering with the lossy
decode of the raw bytes. -/
theorem c3_parse_error_counterexample :
    fetch_body_resolve (fun _ => ['x']) (fun l => l)
      (fun _ => Except.error ()) [some [0]] = Except.error ()
    ∧ fetch_body_resolve (fun _ => ['x']) (fun l => l)
      (fun _ => Except.error ()) [some [0]] ≠ Except.ok ['x'] :=
  ⟨rfl, fun h => nomatch h⟩

/-- C3 as amended: a parse failure on fetched raw bytes is propagated to
the caller as an error (the raw-bytes fallback applies only when parsing
succeeds and no text part exists). -/
theorem c3_parse_error_amended (lossy : List Nat → List Char)
    (render : List Char → List Char) (parse : List Nat → Except Unit Mime)
    (resp : List (Option (List Nat))) (raw : List Nat) (e : Unit)
    (hresp : resp.head?.bind id = some raw)
    (hparse : parse raw = Except.error e) :
    fetch_body_resolve lossy render parse resp = Except.error e := by
  simp only [fetch_body_resolve, hresp, hparse]

/-- Witness for the amended C3 at a concrete failing parse. -/
theorem c3_parse_error_amended_witness :
    fetch_body_resolve (fun _ => ['x']) (fun l => l)
      (fun _ => Except.error ()) [some [1]] = Except.error () :=
  c3_parse_error_amended (fun _ => ['x']) (fun l => l)
    (fun _ => Except.error ()) [some [1]] [1] () rfl rfl

/-- C10: when the FETCH response carries no body data at all, `fetch_body`
returns the empty string as a success value — neither an error nor the
raw-bytes fallback. -/
theorem c10_missing_body (lossy : List Nat → List Char)
    (render : List Char → List Char) (parse : List Nat → Except Unit Mime)
    (resp : List (Option (List Nat))) (hnone : ∀ o ∈ resp, o = none) :
    fetch_body_resolve lossy render parse resp = Except.ok [] := by
  have h : resp.head?.bind id = none := by
    cases resp with
    | nil => rfl
    | cons o t =>
      have ho := hnone o (List.mem_cons_self o t)
      simp [List.head?, ho]
  simp only [fetch_body_resolve, h]

/-- Witness for C10 at a concrete bodyless response. -/
theorem c10_missing_body_witness :
    fetch_body_resolve (fun _ => []) (fun l => l)
      (fun _ => Except.error ()) [none] = Except.ok [] :=
  c10_missing_body (fun _ => []) (fun l => l) (fun _ => Except.error ())
    [none] (by simp)

/-- C1: `fetch_inbox` returns exactly `min count totalMessages` summaries
and their dates are in non-increasing order. -/
theorem c1_sync_sorted_paginated (srv : Server) (count : Nat)
    (s : SessionState) :
    ((fetch_inbox srv count s).2).length = min count srv.inbox.msgs.length
    ∧ ((fetch_inbox srv count s).2).Pairwise
        (fun a b => b.2.2 ≤ a.2.2) := by
  constructor
  · show (fetch_inbox_list srv.inbox count).length = _
    unfold fetch_inbox_list
    simp [List.length_take]
  · show (fetch_inbox_list srv.inbox count).Pairwise _
    unfold fetch_inbox_list
    rw [List.pairwise_map]
    exact List.Pairwise.sublist (List.take_sublist _ _)
      (List.sorted_insertionSort dateDesc _)

/-- C9: with an unchanged server, running `fetch_inbox` again with the same
count — starting from the session state the first run left behind —
produces an identical summary list. -/
theorem c9_sync_idempotent (srv : Server) (count : Nat) (s0 : SessionState) :
    (fetch_inbox srv count ((fetch_inbox srv count s0).1)).2
      = (fetch_inbox srv count s0).2 := rfl

theorem expunge_store (uid : Nat) (l : List Msg) :
    expunge (storeDeleted uid l) =
      l.filter (fun m => !(m.deleted || m.uid == uid)) := by
  unfold expunge storeDeleted
  induction l with
  | nil => rfl
  | cons m ms ih =>
    cases hu : m.uid == uid with
    | true =>
      have he : m.uid = uid := by simpa using hu
      cases hd : m.deleted with
      | true => simpa [he, hu, hd] using ih
      | false => simpa [he, hu, hd] using ih
    | false =>
      have he : ¬m.uid = uid := by simpa using hu
      cases hd : m.deleted with
      | true => simpa [he, hu, hd] using ih
      | false => simpa [he, hu, hd] using ih

/-- C7: `delete_message` selects the inbox and leaves in the folder exactly
the messages that were neither previously flagged deleted nor carry the
targeted UID — so it removes every flagged message, not only the target. -/
theorem c7_delete_purges_all_flagged (srv : Server) (uid : Nat)
    (s : SessionState) :
    ((delete_message srv uid s).2).inbox.msgs =
      srv.inbox.msgs.filter (fun m => !(m.deleted || m.uid == uid))
    ∧ ((delete_message srv uid s).1).selectedFolder = some "INBOX" :=
  ⟨expunge_store uid srv.inbox.msgs, rfl⟩

/-- Concrete server for the C8 counterexample. -/
def sampleServer : Server := ⟨⟨[], fun _ => [], fun _ => []⟩⟩

/-- Counterexample to C8: `fetch_body` issues its request without
selecting the inbox, so from a session with no folder selected the
selected-folder state after the call is still not the inbox. -/
theorem c8_body_fetch_counterexample :
    ((fetch_body (fun _ => []) (fun l => l) (fun _ => Except.error ())
        sampleServer 1 ⟨none⟩).1).selectedFolder ≠ some "INBOX" :=
  fun h => nomatch h

/-- C8 as amended: summary fetch, header fetch and delete each select the
inbox before their request, leaving the selected folder at INBOX; body
fetch issues its request without selecting, leaving the session state
unchanged. -/
theorem c8_selection_amended (srv : Server) (count uid1 uid2 uid3 : Nat)
    (s : SessionState) (lossy : List Nat → List Char)
    (render : List Char → List Char) (parse : List Nat → Except Unit Mime) :
    ((fetch_inbox srv count s).1).selectedFolder = some "INBOX"
    ∧ ((fetch_headers srv uid1 s).1).selectedFolder = some "INBOX"
    ∧ ((delete_message srv uid2 s).1).selectedFolder = some "INBOX"
    ∧ (fetch_body lossy render parse srv uid3 s).1 = s :=
  ⟨rfl, rfl, rfl, rfl⟩

end EmailClient
